import Mathlib

/-!
Verification development for the Better Built Society questionnaire
(src/app.py).  The scoring core is shallowly embedded: Python floats are
modelled as exact rationals together with an explicit NaN marker (`Fl`),
pandas cells as `Cell` (a missing cell is the float NaN), and the scoring
pass over the rule table as structurally recursive functions on lists of
rows.  Comparisons, `min`/`max`, multiplication and addition follow the
Python semantics for NaN (every comparison with NaN is false, arithmetic
with NaN yields NaN).
-/

namespace BBS

/-- ASCII lowering of one character, the effect of Python `str.lower` on
the ASCII range (the only case the comparisons in scope depend on). -/
def lowerChar (c : Char) : Char :=
  if 65 ≤ c.toNat ∧ c.toNat ≤ 90 then Char.ofNat (c.toNat + 32) else c

/-- Model of Python `str.lower`. -/
def lowerStr (s : String) : String := String.mk (s.data.map lowerChar)

/-- Drop whitespace from both ends of a character list. -/
def trimChars (cs : List Char) : List Char :=
  ((cs.dropWhile Char.isWhitespace).reverse.dropWhile Char.isWhitespace).reverse

/-- Model of Python `str.strip()` with no argument. -/
def trimStr (s : String) : String := String.mk (trimChars s.data)

/-- A Python float value as it occurs in the scoring core: either NaN or a
finite value, modelled exactly as a rational.  Infinities are not produced
by any of the embedded code paths. -/
inductive Fl where
  | nan : Fl
  | num : ℚ → Fl
deriving DecidableEq

/-- Python `x - y` on floats: NaN propagates. -/
def Fl.sub : Fl → Fl → Fl
  | .num a, .num b => .num (a - b)
  | _, _ => .nan

/-- Python `x + y` on floats: NaN propagates. -/
def Fl.add : Fl → Fl → Fl
  | .num a, .num b => .num (a + b)
  | _, _ => .nan

/-- Python `x * y` on floats: NaN propagates (also `0.0 * nan = nan`). -/
def Fl.mul : Fl → Fl → Fl
  | .num a, .num b => .num (a * b)
  | _, _ => .nan

/-- Python `abs` on floats. -/
def Fl.abs : Fl → Fl
  | .num a => .num |a|
  | .nan => .nan

/-- Python `x / y` on floats.  Division by NaN yields NaN.  Division by a
numeric zero raises `ZeroDivisionError` in Python; every division in the
source is guarded by an `== 0` test on a numeric divisor, so that branch is
unreachable and is mapped to NaN here. -/
def Fl.div : Fl → Fl → Fl
  | .num a, .num b => if b = 0 then .nan else .num (a / b)
  | _, _ => .nan

/-- Python `x == 0` on a float: false for NaN. -/
def Fl.isZero : Fl → Bool
  | .num a => decide (a = 0)
  | .nan => false

/-- Whether a float value is numeric (not NaN). -/
def Fl.isNum : Fl → Bool
  | .num _ => true
  | .nan => false

/-- The rational value of a float, with NaN sent to 0 (used only under an
`isNum` hypothesis). -/
def Fl.q : Fl → ℚ
  | .num a => a
  | .nan => 0

/-- Whether a float value is a number in the closed interval [0, 1]. -/
def Fl.inUnitB : Fl → Bool
  | .num a => decide (0 ≤ a) && decide (a ≤ 1)
  | .nan => false

/-- Python `a < b` on floats: any comparison involving NaN is false. -/
def pyLt : Fl → Fl → Bool
  | .num a, .num b => decide (a < b)
  | _, _ => false

/-- Python `a > b` on floats: any comparison involving NaN is false. -/
def pyGt : Fl → Fl → Bool
  | .num a, .num b => decide (a > b)
  | _, _ => false

/-- CPython `min(a, b)`: the first argument is the champion; the second
replaces it only when strictly smaller, so `min(1.0, nan) = 1.0`. -/
def pymin (a b : Fl) : Fl := if pyLt b a then b else a

/-- CPython `max(a, b)`: the first argument is the champion; the second
replaces it only when strictly greater, so `max(0.0, nan) = 0.0`. -/
def pymax (a b : Fl) : Fl := if pyGt b a then b else a

/-- Line 144 of src/app.py: `val = max(0.0, min(1.0, val))`. -/
def clamp01 (v : Fl) : Fl := pymax (.num 0) (pymin (.num 1) v)

/-- A pandas cell as read from the workbook: a missing cell is the float
NaN (`na`), otherwise a finite numeric value or a string. -/
inductive Cell where
  | na : Cell
  | num : ℚ → Cell
  | str : String → Cell
deriving DecidableEq

/-- `pd.isna` on a cell. -/
def Cell.isna : Cell → Bool
  | .na => true
  | _ => false

/-- Whether the cell holds a string (`isinstance(x, str)`). -/
def Cell.isStr : Cell → Bool
  | .str _ => true
  | _ => false

/-- Digit run to a natural number. -/
def digitsToNat (cs : List Char) : Nat :=
  cs.foldl (fun n c => n * 10 + (c.toNat - 48)) 0

/-- Value of an unsigned decimal literal `intPart.fracPart`. -/
def decOfDigits (intPart fracPart : List Char) : ℚ :=
  (digitsToNat intPart : ℚ) + (digitsToNat fracPart : ℚ) / ((10 : ℚ) ^ fracPart.length)

/-- Parse an unsigned decimal literal: digits with an optional point and
further digits, at least one digit in total, nothing else. -/
def parseUnsigned (cs : List Char) : Option ℚ :=
  let intDigits := cs.takeWhile Char.isDigit
  let rest := cs.dropWhile Char.isDigit
  match rest with
  | [] => if intDigits.isEmpty then none else some (decOfDigits intDigits [])
  | c :: rest2 =>
    if c = '.' then
      let fracDigits := rest2.takeWhile Char.isDigit
      let rest3 := rest2.dropWhile Char.isDigit
      if rest3.isEmpty && !(intDigits.isEmpty && fracDigits.isEmpty) then
        some (decOfDigits intDigits fracDigits)
      else none
    else none

/-- Python `float(s)` on the string forms that occur in workbook cells:
surrounding whitespace is stripped, an optional sign is read, `nan` (in any
case) gives NaN, and otherwise a plain decimal literal is parsed.  Exponent
and infinity forms, absent from the data, are not modelled: they fall to
`none`, the model of `ValueError`. -/
def parsePyFloat (s : String) : Option Fl :=
  let cs := (trimStr (lowerStr s)).data
  match cs with
  | [] => none
  | c :: rest =>
    let signed : Bool × List Char :=
      if c = '-' then (true, rest) else if c = '+' then (false, rest) else (false, cs)
    if signed.2 = ['n', 'a', 'n'] then some Fl.nan
    else
      match parseUnsigned signed.2 with
      | none => none
      | some q => some (Fl.num (if signed.1 then -q else q))

/-- Python `float(x)` on a cell: a NaN cell is a float already (NaN),
a numeric cell is itself, a string is parsed; `none` models `ValueError`. -/
def pyFloat : Cell → Option Fl
  | .na => some .nan
  | .num q => some (.num q)
  | .str s => parsePyFloat s

/-- Lines 103-145 of src/app.py, `normalize_value(raw, logic, max_ref,
optimal)`.  The `Logik` cells in scope are strings, so `logic` is a
`String`; note that line 110 tests `logic.lower() != "opt"` while the
dispatch on line 119 uses `str(logic).lower().strip()`, and that `max_ref
is not None` on line 136 always holds for a cell value. -/
def normalize_value (raw : Cell) (logic : String) (max_ref optimal : Cell) : Option Fl :=
  match pyFloat raw with
  | none => none
  | some rv =>
    if max_ref.isna && !(lowerStr logic = "opt") then none
    else
      match pyFloat max_ref with
      | none => none
      | some mr =>
        if trimStr (lowerStr logic) = "max" then
          if mr.isZero then none else some (clamp01 (rv.div mr))
        else if trimStr (lowerStr logic) = "min" then
          if mr.isZero then none else some (clamp01 ((Fl.num 1).sub (rv.div mr)))
        else if trimStr (lowerStr logic) = "opt" then
          if optimal.isna then none
          else
            match pyFloat optimal with
            | none => none
            | some opt =>
              if (mr.sub opt).isZero then none
              else some (clamp01 ((Fl.num 1).sub (((rv.sub opt).abs).div (mr.sub opt))))
        else none

/-- `pd.to_numeric(x, errors="coerce")` on one cell, with NaN results
represented as `none` (NaN cells, NaN strings and unparseable strings all
become NaN, which the series maximum skips). -/
def toNumeric : Cell → Option ℚ
  | .na => none
  | .num q => some q
  | .str s =>
    match parsePyFloat s with
    | some (.num q) => some q
    | _ => none

/-- pandas `Series.max()` with the default `skipna=True`: the maximum over
the numeric entries, `none` (NaN) when there are none. -/
def seriesMax : List Cell → Option ℚ
  | [] => none
  | c :: cs =>
    match toNumeric c, seriesMax cs with
    | some q, some m => some (max q m)
    | some q, none => some q
    | none, m => m

/-- Lines 147-156 of src/app.py, `detect_weight_scale`: true when the
series maximum is ≤ 1.0.  When every entry is NaN the maximum is NaN and
`NaN <= 1.0` is false, so the result is false; `pd.to_numeric` with
`errors="coerce"` and `max` never raise, so the `except` branch is dead. -/
def detect_weight_scale (cells : List Cell) : Bool :=
  match seriesMax cells with
  | some m => decide (m ≤ 1)
  | none => false

/-- One row of the rule table (sheet Beräkningar).  The Parameter,
Delparameter and Logik columns hold strings in this workbook and are
modelled as such (a NaN Parameter key would be dropped by groupby and is
outside the model); the remaining columns are arbitrary cells. -/
structure Row where
  parameter : String
  delparam : String
  ravarde : Cell
  vikt : Cell
  maxRef : Cell
  optimal : Cell
  logik : String
  normVal : Cell
deriving DecidableEq

/-- One entry of the answer store: the tagged dictionaries the wizard puts
into session state (type text / scale / number, with scale and number
values stored as int and float). -/
inductive Answer where
  | text (s : String)
  | scale (v : ℤ)
  | number (v : ℚ)
deriving DecidableEq

/-- Python `answers[key].get("type") == "text"`. -/
def Answer.isText : Answer → Bool
  | .text _ => true
  | _ => false

/-- Python `answers[key].get("value")` as a cell value.  For a text answer
the value key is absent; that case is unreachable because every caller
first checks the type tag. -/
def Answer.rawCell : Answer → Cell
  | .text s => .str s
  | .scale v => .num v
  | .number v => .num v

/-- The answer store: a dict keyed by `(str(param), str(delp))`. -/
abbrev Answers := List ((String × String) × Answer)

/-- Dict lookup `answers[key]` guarded by `key in answers`. -/
def lookupAnswer (ans : Answers) (k : String × String) : Option Answer :=
  (ans.find? (fun e => e.1 = k)).map (fun e => e.2)

/-- Lines 176-182 of src/app.py: the weight of one row.  A NaN weight
becomes 0.0 before the scale correction; otherwise `float(weight)` is
taken (an unparseable string raises, modelled by `none`, and the exception
propagates out of `calculate_scores`) and divided by 100 unless the table
weights were detected as fractions. -/
def rowWeight (fractions : Bool) (r : Row) : Option Fl :=
  if r.vikt.isna then some (Fl.num 0)
  else
    match pyFloat r.vikt with
    | none => none
    | some w => some (if fractions then w else w.div (Fl.num 100))

/-- Lines 190-197 of src/app.py, the fallback when no usable answer
exists: `float` of the precomputed `Normaliserat värde` cell, and on
failure `normalize_value` of the stored `Råvärde` cell.  Note that a NaN
cell passes `float` successfully (as NaN). -/
def fallbackNormalized (r : Row) : Option Fl :=
  match pyFloat r.normVal with
  | some f => some f
  | none => normalize_value r.ravarde r.logik r.maxRef r.optimal

/-- Lines 184-200 of src/app.py: the normalized contribution of one row.
A non-text answer for `(param, delp)` is normalized; otherwise the
fallback applies; a `None` outcome becomes the contribution 0.0. -/
def rowNormalized (ans : Answers) (param : String) (r : Row) : Fl :=
  (match lookupAnswer ans (param, r.delparam) with
   | some a =>
     if a.isText then fallbackNormalized r
     else normalize_value a.rawCell r.logik r.maxRef r.optimal
   | none => fallbackNormalized r).getD (Fl.num 0)

/-- The accumulation loop of lines 169-202: `total_score += weight *
normalized` over the rows of one parameter group, starting from `acc`. -/
def paramTotalFrom (ans : Answers) (fractions : Bool) (param : String) (acc : Fl) :
    List Row → Option Fl
  | [] => some acc
  | r :: rs =>
    match rowWeight fractions r with
    | none => none
    | some w => paramTotalFrom ans fractions param (acc.add (w.mul (rowNormalized ans param r))) rs

/-- The weighted sum of one parameter group (lines 169-202), from 0.0. -/
def paramTotal (ans : Answers) (fractions : Bool) (param : String) (rows : List Row) : Option Fl :=
  paramTotalFrom ans fractions param (Fl.num 0) rows

/-- Round half to even at integer precision (the rounding Python `round`
applies to the exact decimal value). -/
def rhe (y : ℚ) : ℤ :=
  if y - ⌊y⌋ < 1/2 then ⌊y⌋
  else if 1/2 < y - ⌊y⌋ then ⌊y⌋ + 1
  else if ⌊y⌋ % 2 = 0 then ⌊y⌋ else ⌊y⌋ + 1

/-- Python `round(x, 3)` on the exact value: round half to even at the
third decimal. -/
def roundQ3 (x : ℚ) : ℚ := (rhe (x * 1000) : ℚ) / 1000

/-- Python `round(x, 3)` on a float: NaN rounds to NaN. -/
def Fl.round3 : Fl → Fl
  | .nan => .nan
  | .num x => .num (roundQ3 x)

/-- First occurrences (in order) of a list of keys, tracking what has been
seen. -/
def dedupAux (seen : List String) : List String → List String
  | [] => []
  | x :: xs => if x ∈ seen then dedupAux seen xs else x :: dedupAux (x :: seen) xs

/-- The distinct parameters of the table in first-appearance order. -/
def appearanceKeys (rows : List Row) : List String :=
  dedupAux [] (rows.map (fun r => r.parameter))

/-- Lexicographic comparison of character lists by code point, the order
Python uses to compare strings. -/
def charsLe : List Char → List Char → Bool
  | [], _ => true
  | _ :: _, [] => false
  | a :: as, b :: bs =>
    if a.toNat < b.toNat then true
    else if b.toNat < a.toNat then false
    else charsLe as bs

/-- Python string `<=`: lexicographic by code point. -/
def strLeB (a b : String) : Bool := charsLe a.data b.data

/-- Insert into a sorted list of keys. -/
def insertLe (x : String) : List String → List String
  | [] => [x]
  | y :: ys => if strLeB x y then x :: y :: ys else y :: insertLe x ys

/-- Insertion sort of key lists by the Python string order. -/
def sortLe : List String → List String
  | [] => []
  | x :: xs => insertLe x (sortLe xs)

/-- `calc_df.groupby("Parameter")` iterates groups with keys in ascending
sorted order (the pandas default `sort=True`): the distinct parameters,
sorted. -/
def sortedKeys (rows : List Row) : List String :=
  sortLe (appearanceKeys rows)

/-- Build the scores dict in group-iteration order; a raised exception in
any group (`none`) aborts the whole computation. -/
def collectScores (f : String → Option Fl) : List String → Option (List (String × Fl))
  | [] => some []
  | k :: ks =>
    match f k with
    | none => none
    | some v =>
      match collectScores f ks with
      | none => none
      | some s => some ((k, v) :: s)

/-- Line 166 of src/app.py: the table-global weight-scale detection. -/
def tableFractions (rows : List Row) : Bool :=
  detect_weight_scale (rows.map (fun r => r.vikt))

/-- Lines 158-206 of src/app.py, `calculate_scores(answers)`: detect the
weight scale once, group the rows by Parameter (sorted keys, original row
order within a group), accumulate each group and round to 3 decimals. -/
def calculate_scores (rows : List Row) (ans : Answers) : Option (List (String × Fl)) :=
  collectScores
    (fun p => (paramTotal ans (tableFractions rows) p
        (rows.filter (fun r => r.parameter = p))).map Fl.round3)
    (sortedKeys rows)

/-- Python `sum` over the score values. -/
def sumFl (l : List Fl) : Fl := l.foldl Fl.add (Fl.num 0)

/-- Line 380 of src/app.py: `round(sum(scores.values()) / len(scores), 3)
if len(scores) > 0 else 0.0`. -/
def total_score (scores : List (String × Fl)) : Fl :=
  if 0 < scores.length then
    Fl.round3 ((sumFl (scores.map (fun pv => pv.2))).div (Fl.num scores.length))
  else Fl.num 0

/-- Match, at the start of the character list, the tail of the pattern
`skala\s*([0-9]+)\s*[-–]\s*([0-9]+)` (everything after the literal
`skala`): optional whitespace, a maximal digit run, optional whitespace, a
hyphen or en-dash, optional whitespace, a second maximal digit run.  The
greedy digit and whitespace runs of the regex are deterministic here
because a digit can be consumed by no other piece of the pattern. -/
def matchScaleTail (cs : List Char) : Option (Nat × Nat) :=
  let cs1 := cs.dropWhile Char.isWhitespace
  let d1 := cs1.takeWhile Char.isDigit
  if d1.isEmpty then none
  else
    match (cs1.dropWhile Char.isDigit).dropWhile Char.isWhitespace with
    | [] => none
    | c :: cs3 =>
      if c = '-' ∨ c = '–' then
        let cs4 := cs3.dropWhile Char.isWhitespace
        let d2 := cs4.takeWhile Char.isDigit
        if d2.isEmpty then none else some (digitsToNat d1, digitsToNat d2)
      else none

/-- `re.search`: try the pattern at every position, leftmost match wins.
The literal `skala` anchors each attempt. -/
def scaleSearch : List Char → Option (Nat × Nat)
  | [] => none
  | c :: cs =>
    match c, cs with
    | 's', 'k' :: 'a' :: 'l' :: 'a' :: rest =>
      (match matchScaleTail rest with
       | some p => some p
       | none => scaleSearch cs)
    | _, _ => scaleSearch cs

/-- Lines 45-56 of src/app.py, `parse_scale(enhet)`: lowercase and strip
the label, then search for `skala <lo>-<hi>`.  Callers pass strings, so
the `isinstance` guard is modelled as always passing. -/
def parse_scale (enhet : String) : Option (Nat × Nat) :=
  scaleSearch (trimStr (lowerStr enhet)).data

/-- Membership of a pattern at the head of a character list. -/
def leadsWith : List Char → List Char → Bool
  | _, [] => true
  | [], _ :: _ => false
  | c :: cs, p :: ps => if c = p then leadsWith cs ps else false

/-- Python `pat in s` on strings: some contiguous run of `s` equals
`pat`. -/
def containsRun : List Char → List Char → Bool
  | [], pat => pat.isEmpty
  | s@(_ :: rest), pat => leadsWith s pat || containsRun rest pat

/-- Python substring containment `pat in s`. -/
def containsSub (s pat : String) : Bool := containsRun s.data pat.data

/-- Line 65 of src/app.py: the free-text test on the lowered, stripped
label. -/
def isFreeTextLabel (s : String) : Bool :=
  containsSub s "fritext" || s == "text" || s == "kommentar"

/-- The widget spec dictionaries returned by `infer_input_type`. -/
inductive InputSpec where
  | text
  | radio (options : List Nat)
  | slider (lo hi step : Nat)
  | select (options : List (String × Nat))
  | numberSpec (lo : Nat) (hi : Option Nat) (step : Nat)
deriving DecidableEq

/-- Python `list(range(lo, hi + 1))`. -/
def rangeIncl (lo hi : Nat) : List Nat :=
  (List.range (hi + 1 - lo)).map (fun k => lo + k)

/-- Lines 58-101 of src/app.py, `infer_input_type(enhet, parameter,
delparam)`.  Callers pass strings for all three arguments, so the
`isinstance` guard is modelled as always passing; note that the `km/h`
test inspects the original label while every other substring test uses
the lowered, stripped one. -/
def infer_input_type (enhet parameter delparam : String) : InputSpec :=
  let s := trimStr (lowerStr enhet)
  if isFreeTextLabel s then .text
  else
    match parse_scale enhet with
    | some (lo, hi) =>
      if (hi : ℤ) - (lo : ℤ) ≤ 5 then .radio (rangeIncl lo hi)
      else .slider lo hi 1
    | none =>
      if containsSub s "kategori" ∧ lowerStr parameter = "kollektivtrafik"
          ∧ lowerStr delparam = "trafiktyp" then
        .select [("Spår", 3), ("BRT", 2), ("Buss", 1)]
      else if containsSub s "procent" then .numberSpec 0 (some 100) 1
      else if containsSub s "meter" then .numberSpec 0 none 1
      else if containsSub s "minuter" then .numberSpec 0 none 1
      else if containsSub s "antal" then .numberSpec 0 none 1
      else if containsSub s "poäng" then .numberSpec 0 (some 100) 1
      else if containsSub s "db" then .numberSpec 0 none 1
      else if containsSub enhet "km/h" ∨ containsSub s "kmh" then .numberSpec 0 none 1
      else if containsSub s "index" ∨ containsSub s "hushållstyper"
          ∨ containsSub s "boendeformer" then .numberSpec 0 none 1
      else .numberSpec 0 none 1

/-- The weight a row contributes after NaN-fill and scale resolution, for
rows whose weight cell is not a string (the numeric workbook case). -/
def resolvedWeight (fractions : Bool) : Cell → ℚ
  | .num q => if fractions then q else q / 100
  | _ => 0

/-! ## Helper lemmas -/

theorem clamp01_inUnit (v : Fl) : ∃ q : ℚ, clamp01 v = Fl.num q ∧ 0 ≤ q ∧ q ≤ 1 := by
  cases v with
  | nan =>
    exact ⟨1, by simp [clamp01, pymin, pymax, pyLt, pyGt], by norm_num, le_refl 1⟩
  | num x =>
    by_cases h1 : x < 1
    · by_cases h0 : 0 < x
      · exact ⟨x, by simp [clamp01, pymin, pymax, pyLt, pyGt, h1, h0], le_of_lt h0, le_of_lt h1⟩
      · exact ⟨0, by simp [clamp01, pymin, pymax, pyLt, pyGt, h1, h0], le_refl 0, by norm_num⟩
    · exact ⟨1, by simp [clamp01, pymin, pymax, pyLt, pyGt, h1], by norm_num, le_refl 1⟩

theorem normalize_value_some (raw : Cell) (logic : String) (mr opt : Cell) (v : Fl)
    (h : normalize_value raw logic mr opt = some v) :
    ∃ q : ℚ, v = Fl.num q ∧ 0 ≤ q ∧ q ≤ 1 := by
  unfold normalize_value at h
  repeat' split at h
  all_goals try exact Option.noConfusion h
  all_goals exact (Option.some.inj h) ▸ clamp01_inUnit _

/-! ## C6 -/

/-- C6: for every input, whenever `normalize_value` returns a number
rather than None, that number lies in the closed interval [0,1]; the final
clamp saturates a computed numeric value to the nearest endpoint
(`max 0 (min 1 x)`), never rejecting it and never raising. -/
theorem c6_normalizer_range :
    (∀ (raw : Cell) (logic : String) (mr opt : Cell) (v : Fl),
        normalize_value raw logic mr opt = some v → v.inUnitB = true) ∧
    (∀ x : ℚ, clamp01 (Fl.num x) = Fl.num (max 0 (min 1 x))) := by
  constructor
  · intro raw logic mr opt v h
    obtain ⟨q, rfl, h0, h1⟩ := normalize_value_some raw logic mr opt v h
    simp [Fl.inUnitB, h0, h1]
  · intro x
    rcases lt_or_le x 1 with h1 | h1
    · rcases lt_or_le 0 x with h0 | h0
      · rw [min_eq_right h1.le, max_eq_right h0.le]
        simp [clamp01, pymin, pymax, pyLt, pyGt, h1, h0]
      · rw [min_eq_right h1.le, max_eq_left h0]
        simp [clamp01, pymin, pymax, pyLt, pyGt, h1, not_lt.mpr h0]
    · rw [min_eq_left h1]
      rw [show max (0:ℚ) 1 = 1 from max_eq_right zero_le_one]
      simp [clamp01, pymin, pymax, pyLt, pyGt, not_lt.mpr h1, show (0:ℚ) < 1 from zero_lt_one]

unseal Rat.add Rat.mul Rat.inv Rat.sub in
/-- C6 witness: the range theorem applied at the concrete call
`normalize_value 7 max 2 _`, which computes 3.5 and clamps to 1.0. -/
theorem c6_witness : Fl.inUnitB (Fl.num 1) = true :=
  c6_normalizer_range.1 (Cell.num 7) "max" (Cell.num 2) Cell.na (Fl.num 1) (by decide)

/-! ## C7 -/

unseal Rat.add Rat.mul Rat.inv Rat.sub in
/-- C7 counterexample: the claimed boundary identities fail at their
degenerate reference values.  `normalize(max_ref, "max", max_ref, _)` is
None, not 1.0, at `max_ref = 0`, and `normalize(optimal, "opt", max_ref,
optimal)` is None, not 1.0, at `max_ref = optimal`. -/
theorem c7_counterexample :
    normalize_value (Cell.num 0) "max" (Cell.num 0) Cell.na = none ∧
    normalize_value (Cell.num 4) "opt" (Cell.num 4) (Cell.num 4) = none := by
  decide

/-- C7 (amended): the boundary identities hold away from the degenerate
references: `normalize(max_ref, "max", max_ref, _) = 1.0` for numeric
`max_ref` other than 0, `normalize(0, "max", max_ref, _) = 0.0` for
`max_ref` greater than 0, and `normalize(optimal, "opt", max_ref,
optimal) = 1.0` for numeric `max_ref` other than `optimal`. -/
theorem c7_amended :
    (∀ (m : ℚ) (opt : Cell), m ≠ 0 →
        normalize_value (Cell.num m) "max" (Cell.num m) opt = some (Fl.num 1)) ∧
    (∀ (m : ℚ) (opt : Cell), 0 < m →
        normalize_value (Cell.num 0) "max" (Cell.num m) opt = some (Fl.num 0)) ∧
    (∀ (m o : ℚ), m ≠ o →
        normalize_value (Cell.num o) "opt" (Cell.num m) (Cell.num o) = some (Fl.num 1)) := by
  refine ⟨?_, ?_, ?_⟩
  · intro m opt hm
    have hdiv : (Fl.num m).div (Fl.num m) = Fl.num 1 := by
      simp [Fl.div, hm, div_self hm]
    simp [normalize_value, pyFloat, Cell.isna, Fl.isZero, hm, hdiv,
      show trimStr (lowerStr "max") = "max" from by decide,
      clamp01, pymin, pymax, pyLt, pyGt,
      show ¬((1:ℚ) < 1) from lt_irrefl 1, show (0:ℚ) < 1 from zero_lt_one]
  · intro m opt hm
    have hdiv : (Fl.num 0).div (Fl.num m) = Fl.num 0 := by
      simp [Fl.div, ne_of_gt hm]
    simp [normalize_value, pyFloat, Cell.isna, Fl.isZero, ne_of_gt hm, hdiv,
      show trimStr (lowerStr "max") = "max" from by decide,
      clamp01, pymin, pymax, pyLt, pyGt,
      show (0:ℚ) < 1 from zero_lt_one, lt_irrefl]
  · intro m o hmo
    have hsub : (Fl.num m).sub (Fl.num o) = Fl.num (m - o) := rfl
    have hz : Fl.isZero (Fl.num (m - o)) = false := by
      simp [Fl.isZero, sub_eq_zero, hmo]
    have hdiv : (Fl.num 0).div (Fl.num (m - o)) = Fl.num 0 := by
      simp [Fl.div, sub_eq_zero, hmo]
    simp [normalize_value, pyFloat, Cell.isna, hsub, hz, hdiv, Fl.sub, Fl.abs,
      show lowerStr "opt" = "opt" from by decide,
      show trimStr "opt" = "opt" from by decide,
      clamp01, pymin, pymax, pyLt, pyGt,
      show ¬((1:ℚ) < 1) from lt_irrefl 1, show (0:ℚ) < 1 from zero_lt_one]

unseal Rat.add Rat.mul Rat.inv Rat.sub in
/-- C7 witness: the amended boundary identities at `max_ref = 2` and at
`(max_ref, optimal) = (2, 5)`. -/
theorem c7_witness :
    normalize_value (Cell.num 2) "max" (Cell.num 2) Cell.na = some (Fl.num 1) ∧
    normalize_value (Cell.num 0) "max" (Cell.num 2) Cell.na = some (Fl.num 0) ∧
    normalize_value (Cell.num 5) "opt" (Cell.num 2) (Cell.num 5) = some (Fl.num 1) :=
  ⟨c7_amended.1 2 Cell.na (by norm_num),
   c7_amended.2.1 2 Cell.na (by norm_num),
   c7_amended.2.2 2 5 (by norm_num)⟩

/-! ## C3 -/

unseal Rat.add Rat.mul Rat.inv Rat.sub in
/-- C3 counterexample: `opt` logic with an absent (NaN) `max_ref` and a
present `optimal` does not return None; the NaN denominator propagates
through `1 - |raw - optimal| / denom` and the final clamp turns the NaN
into 1.0. -/
theorem c3_counterexample :
    normalize_value (Cell.num 5) "opt" Cell.na (Cell.num 3) = some (Fl.num 1) ∧
    normalize_value (Cell.num 5) "opt" Cell.na (Cell.num 3) ≠ none := by
  decide

/-- C3 (amended): `normalize_value` returns None when raw cannot be
coerced to a number; when logic is max or min and `max_ref` is absent or
0; when logic is opt and `optimal` is absent or `max_ref` equals
`optimal`; and when logic is any other string.  But opt logic with an
absent `max_ref` and a numeric `optimal` does NOT return None: the NaN
denominator propagates and the clamp returns 1.0. -/
theorem c3_amended :
    (∀ (raw : Cell) (logic : String) (mr opt : Cell),
        pyFloat raw = none → normalize_value raw logic mr opt = none) ∧
    (∀ (raw : Cell) (logic : String) (opt : Cell),
        trimStr (lowerStr logic) = "max" ∨ trimStr (lowerStr logic) = "min" →
        normalize_value raw logic Cell.na opt = none ∧
        normalize_value raw logic (Cell.num 0) opt = none) ∧
    (∀ (raw : Cell) (logic : String) (mr : Cell),
        trimStr (lowerStr logic) = "opt" →
        normalize_value raw logic mr Cell.na = none) ∧
    (∀ (raw : Cell) (logic : String) (q : ℚ),
        trimStr (lowerStr logic) = "opt" →
        normalize_value raw logic (Cell.num q) (Cell.num q) = none) ∧
    (∀ (raw : Cell) (logic : String) (mr opt : Cell),
        ¬(trimStr (lowerStr logic) = "max" ∨ trimStr (lowerStr logic) = "min"
          ∨ trimStr (lowerStr logic) = "opt") →
        normalize_value raw logic mr opt = none) ∧
    (∀ (raw : Cell) (logic : String) (q : ℚ) (rv : Fl),
        lowerStr logic = "opt" → pyFloat raw = some rv →
        normalize_value raw logic Cell.na (Cell.num q) = some (Fl.num 1)) := by
  refine ⟨?_, ?_, ?_, ?_, ?_, ?_⟩
  · intro raw logic mr opt h
    simp [normalize_value, h]
  · intro raw logic opt hlg
    have hne : ¬(lowerStr logic = "opt") := by
      intro he
      rcases hlg with h | h <;> rw [he] at h <;> exact absurd h (by decide)
    constructor
    · cases hr : pyFloat raw with
      | none => simp [normalize_value, hr]
      | some rv => simp [normalize_value, hr, Cell.isna, hne]
    · cases hr : pyFloat raw with
      | none => simp [normalize_value, hr]
      | some rv =>
        rcases hlg with h | h <;>
          simp [normalize_value, hr, Cell.isna, h,
            show pyFloat (Cell.num 0) = some (Fl.num 0) from rfl,
            show Fl.isZero (Fl.num 0) = true from by simp [Fl.isZero]]
  · intro raw logic mr h
    cases hr : pyFloat raw with
    | none => simp [normalize_value, hr]
    | some rv =>
      by_cases hg : (Cell.isna mr && !(lowerStr logic = "opt")) = true
      · simp [normalize_value, hr, hg]
      · cases hm : pyFloat mr with
        | none => simp [normalize_value, hr, hg, hm]
        | some m => simp [normalize_value, hr, hg, hm, h, Cell.isna]
  · intro raw logic q h
    cases hr : pyFloat raw with
    | none => simp [normalize_value, hr]
    | some rv =>
      simp [normalize_value, hr, Cell.isna, h,
        show ∀ x : ℚ, pyFloat (Cell.num x) = some (Fl.num x) from fun x => rfl,
        show Fl.isZero ((Fl.num q).sub (Fl.num q)) = true from by simp [Fl.sub, Fl.isZero]]
  · intro raw logic mr opt h
    push_neg at h
    obtain ⟨h1, h2, h3⟩ := h
    cases hr : pyFloat raw with
    | none => simp [normalize_value, hr]
    | some rv =>
      by_cases hg : (Cell.isna mr && !(lowerStr logic = "opt")) = true
      · simp [normalize_value, hr, hg]
      · cases hm : pyFloat mr with
        | none => simp [normalize_value, hr, hg, hm]
        | some m => simp [normalize_value, hr, hg, hm, h1, h2, h3]
  · intro raw logic q rv h hr
    have htrim : trimStr (lowerStr logic) = "opt" := by rw [h]; decide
    cases rv with
    | nan =>
      simp [normalize_value, hr, Cell.isna, h, Fl.sub, Fl.abs, Fl.div,
        Fl.isZero, clamp01, pymin, pymax, pyLt, pyGt,
        show pyFloat Cell.na = some Fl.nan from rfl,
        show ∀ x : ℚ, pyFloat (Cell.num x) = some (Fl.num x) from fun x => rfl,
        show trimStr "opt" = "opt" from by decide]
    | num x =>
      simp [normalize_value, hr, Cell.isna, h, Fl.sub, Fl.abs, Fl.div,
        Fl.isZero, clamp01, pymin, pymax, pyLt, pyGt,
        show pyFloat Cell.na = some Fl.nan from rfl,
        show ∀ x : ℚ, pyFloat (Cell.num x) = some (Fl.num x) from fun x => rfl,
        show trimStr "opt" = "opt" from by decide]

unseal Rat.add Rat.mul Rat.inv Rat.sub in
/-- C3 witness: the None cases of the amended characterization at
concrete inputs (max logic with absent and with zero reference). -/
theorem c3_witness :
    normalize_value (Cell.num 3) "MAX" Cell.na Cell.na = none ∧
    normalize_value (Cell.num 3) "MAX" (Cell.num 0) Cell.na = none :=
  c3_amended.2.1 (Cell.num 3) "MAX" Cell.na (Or.inl (by decide))

/-! ## C9 -/

/-- C9 counterexample: a unit label can match the scale pattern and still
not classify as a scale control, because the free-text test runs first:
`"Fritext skala 1-3"` matches `skala 1-3` but returns the text spec. -/
theorem c9_counterexample :
    parse_scale "Fritext skala 1-3" = some (1, 3) ∧
    infer_input_type "Fritext skala 1-3" "P" "D" = InputSpec.text := by
  decide

/-- C9 (amended): for every unit label matching the scale pattern that
does not already classify as free text, the classifier returns the radio
spec over exactly the integers lo..hi when hi - lo ≤ 5, and otherwise the
slider spec over [lo, hi] with step 1. -/
theorem c9_amended (enhet parameter delparam : String) (lo hi : Nat)
    (hscale : parse_scale enhet = some (lo, hi))
    (hft : isFreeTextLabel (trimStr (lowerStr enhet)) = false) :
    ((hi : ℤ) - (lo : ℤ) ≤ 5 →
        infer_input_type enhet parameter delparam = InputSpec.radio (rangeIncl lo hi) ∧
        ∀ n : Nat, n ∈ rangeIncl lo hi ↔ lo ≤ n ∧ n ≤ hi) ∧
    (¬((hi : ℤ) - (lo : ℤ) ≤ 5) →
        infer_input_type enhet parameter delparam = InputSpec.slider lo hi 1) := by
  constructor
  · intro hspan
    constructor
    · simp [infer_input_type, hft, hscale, hspan]
    · intro n
      simp only [rangeIncl, List.mem_map, List.mem_range]
      constructor
      · rintro ⟨k, hk, rfl⟩
        omega
      · rintro ⟨h1, h2⟩
        exact ⟨n - lo, by omega, by omega⟩
  · intro hspan
    simp [infer_input_type, hft, hscale, hspan]

/-- C9 witness: the amended classification at the concrete label
`"Skala 0-10"`, whose span 10 exceeds 5 and yields the slider spec. -/
theorem c9_witness :
    infer_input_type "Skala 0-10" "P" "D" = InputSpec.slider 0 10 1 :=
  (c9_amended "Skala 0-10" "P" "D" 0 10 (by decide) (by decide)).2 (by decide)

/-! ## C4 -/

theorem seriesMax_none (l : List Cell) (h : seriesMax l = none) :
    ∀ c ∈ l, toNumeric c = none := by
  induction l with
  | nil => simp
  | cons c cs ih =>
    intro d hd
    cases htc : toNumeric c with
    | none =>
      simp only [seriesMax, htc] at h
      rcases List.mem_cons.mp hd with rfl | hd
      · exact htc
      · exact ih h d hd
    | some qc =>
      cases hcs : seriesMax cs <;> simp [seriesMax, htc, hcs] at h

theorem seriesMax_le (l : List Cell) : ∀ m : ℚ, seriesMax l = some m →
    ∀ c ∈ l, ∀ q : ℚ, toNumeric c = some q → q ≤ m := by
  induction l with
  | nil => intro m hm; simp [seriesMax] at hm
  | cons c cs ih =>
    intro m hm d hd q hq
    rcases List.mem_cons.mp hd with rfl | hd
    · cases hcs : seriesMax cs with
      | none =>
        simp only [seriesMax, hq, hcs] at hm
        exact le_of_eq (Option.some.inj hm)
      | some mc =>
        simp only [seriesMax, hq, hcs] at hm
        exact (Option.some.inj hm) ▸ le_max_left q mc
    · cases htc : toNumeric c with
      | none =>
        simp only [seriesMax, htc] at hm
        exact ih m hm d hd q hq
      | some qc =>
        cases hcs : seriesMax cs with
        | none =>
          rw [seriesMax_none cs hcs d hd] at hq
          exact Option.noConfusion hq
        | some mc =>
          simp only [seriesMax, htc, hcs] at hm
          exact (Option.some.inj hm) ▸
            le_trans (ih mc hcs d hd q hq) (le_max_right qc mc)

theorem seriesMax_mem (l : List Cell) : ∀ m : ℚ, seriesMax l = some m →
    ∃ c ∈ l, toNumeric c = some m := by
  induction l with
  | nil => intro m hm; simp [seriesMax] at hm
  | cons c cs ih =>
    intro m hm
    cases htc : toNumeric c with
    | none =>
      simp only [seriesMax, htc] at hm
      obtain ⟨d, hd, hq⟩ := ih m hm
      exact ⟨d, List.mem_cons_of_mem c hd, hq⟩
    | some qc =>
      cases hcs : seriesMax cs with
      | none =>
        simp only [seriesMax, htc, hcs] at hm
        exact ⟨c, List.mem_cons_self c cs, hm ▸ htc⟩
      | some mc =>
        simp only [seriesMax, htc, hcs] at hm
        rcases max_choice qc mc with h | h
        · exact ⟨c, List.mem_cons_self c cs, by rw [htc, ← hm, h]⟩
        · obtain ⟨d, hd, hq⟩ := ih mc hcs
          exact ⟨d, List.mem_cons_of_mem c hd, by rw [hq, ← hm, h]⟩

/-- C4: the weight-scale decision is table-global: when some weight in
the table is numeric and every numeric weight is at most 1, each numeric
weight resolves as-is (fractions); when some numeric weight exceeds 1,
each numeric weight is divided by 100. -/
theorem c4_weight_scale (rows : List Row) :
    ((∃ r ∈ rows, (toNumeric r.vikt).isSome = true) →
     (∀ r ∈ rows, ∀ q : ℚ, toNumeric r.vikt = some q → q ≤ 1) →
      ∀ r ∈ rows, ∀ q : ℚ, r.vikt = Cell.num q →
        rowWeight (tableFractions rows) r = some (Fl.num q)) ∧
    ((∃ r ∈ rows, ∃ q : ℚ, toNumeric r.vikt = some q ∧ 1 < q) →
      ∀ r ∈ rows, ∀ q : ℚ, r.vikt = Cell.num q →
        rowWeight (tableFractions rows) r = some (Fl.num (q / 100))) := by
  constructor
  · intro hex hle r hr q hq
    have hfr : tableFractions rows = true := by
      unfold tableFractions detect_weight_scale
      cases hs : seriesMax (rows.map (fun r => r.vikt)) with
      | none =>
        exfalso
        obtain ⟨r0, hr0, hsome⟩ := hex
        have h0 := seriesMax_none _ hs r0.vikt (List.mem_map.mpr ⟨r0, hr0, rfl⟩)
        rw [h0] at hsome
        exact Bool.noConfusion hsome
      | some m =>
        obtain ⟨c, hc, hcm⟩ := seriesMax_mem _ m hs
        obtain ⟨r0, hr0, rfl⟩ := List.mem_map.mp hc
        exact decide_eq_true (hle r0 hr0 m hcm)
    rw [hfr]
    simp [rowWeight, hq, Cell.isna, pyFloat]
  · intro hex r hr q hq
    have hfr : tableFractions rows = false := by
      unfold tableFractions detect_weight_scale
      obtain ⟨r0, hr0, q0, hq0, h1⟩ := hex
      cases hs : seriesMax (rows.map (fun r => r.vikt)) with
      | none =>
        exfalso
        have h0 := seriesMax_none _ hs r0.vikt (List.mem_map.mpr ⟨r0, hr0, rfl⟩)
        rw [h0] at hq0
        exact Option.noConfusion hq0
      | some m =>
        have hm := seriesMax_le _ m hs r0.vikt (List.mem_map.mpr ⟨r0, hr0, rfl⟩) q0 hq0
        exact decide_eq_false (not_le.mpr (lt_of_lt_of_le h1 hm))
    rw [hfr]
    have hdiv : (Fl.num q).div (Fl.num 100) = Fl.num (q / 100) := by
      norm_num [Fl.div]
    simp [rowWeight, hq, Cell.isna, pyFloat, hdiv]

unseal Rat.add Rat.mul Rat.inv Rat.sub in
/-- C4 witness: a table with weights 10, 20, 70 (maximum above 1) has
each weight divided by 100, so 10 resolves to 0.1; a table with weights
0.1, 0.2, 0.7 (maximum at most 1) keeps 0.1 as-is. -/
theorem c4_witness :
    rowWeight
      (tableFractions
        [Row.mk "P" "a" Cell.na (Cell.num 10) Cell.na Cell.na "max" Cell.na,
         Row.mk "P" "b" Cell.na (Cell.num 20) Cell.na Cell.na "max" Cell.na,
         Row.mk "P" "c" Cell.na (Cell.num 70) Cell.na Cell.na "max" Cell.na])
      (Row.mk "P" "a" Cell.na (Cell.num 10) Cell.na Cell.na "max" Cell.na)
      = some (Fl.num (10 / 100)) ∧
    rowWeight
      (tableFractions
        [Row.mk "P" "a" Cell.na (Cell.num (1/10)) Cell.na Cell.na "max" Cell.na,
         Row.mk "P" "b" Cell.na (Cell.num (2/10)) Cell.na Cell.na "max" Cell.na,
         Row.mk "P" "c" Cell.na (Cell.num (7/10)) Cell.na Cell.na "max" Cell.na])
      (Row.mk "P" "a" Cell.na (Cell.num (1/10)) Cell.na Cell.na "max" Cell.na)
      = some (Fl.num (1/10)) :=
  ⟨(c4_weight_scale _).2 (by decide)
      (Row.mk "P" "a" Cell.na (Cell.num 10) Cell.na Cell.na "max" Cell.na)
      (by decide) 10 rfl,
   (c4_weight_scale _).1 (by decide) (by decide)
      (Row.mk "P" "a" Cell.na (Cell.num (1/10)) Cell.na Cell.na "max" Cell.na)
      (by decide) (1/10) rfl⟩

/-! ## Scoring-engine lemmas -/

theorem rowWeight_resolved (fr : Bool) (r : Row) (h : Cell.isStr r.vikt = false) :
    rowWeight fr r = some (Fl.num (resolvedWeight fr r.vikt)) := by
  cases hv : r.vikt with
  | na => simp [rowWeight, hv, Cell.isna, resolvedWeight]
  | num q =>
    cases fr with
    | true => simp [rowWeight, hv, Cell.isna, pyFloat, resolvedWeight]
    | false =>
      have hdiv : (Fl.num q).div (Fl.num 100) = Fl.num (q / 100) := by
        norm_num [Fl.div]
      simp [rowWeight, hv, Cell.isna, pyFloat, resolvedWeight, hdiv]
  | str s => rw [hv] at h; exact Bool.noConfusion h

theorem isNum_exists {v : Fl} (h : v.isNum = true) : ∃ q : ℚ, v = Fl.num q := by
  cases v with
  | nan => exact Bool.noConfusion h
  | num q => exact ⟨q, rfl⟩

theorem paramTotalFrom_sum (ans : Answers) (fr : Bool) (p : String) :
    ∀ (l : List Row) (a : ℚ),
      (∀ r ∈ l, Cell.isStr r.vikt = false) →
      (∀ r ∈ l, (rowNormalized ans p r).isNum = true) →
      paramTotalFrom ans fr p (Fl.num a) l =
        some (Fl.num (a +
          (l.map (fun r => resolvedWeight fr r.vikt * (rowNormalized ans p r).q)).sum)) := by
  intro l
  induction l with
  | nil => intro a _ _; simp [paramTotalFrom]
  | cons r rs ih =>
    intro a hstr hc
    obtain ⟨c, hcc⟩ := isNum_exists (hc r (List.mem_cons_self r rs))
    have hw := rowWeight_resolved fr r (hstr r (List.mem_cons_self r rs))
    have hstep : (Fl.num a).add ((Fl.num (resolvedWeight fr r.vikt)).mul (Fl.num c)) =
        Fl.num (a + resolvedWeight fr r.vikt * c) := rfl
    simp only [paramTotalFrom, hw, hcc, hstep]
    rw [ih (a + resolvedWeight fr r.vikt * c)
        (fun x hx => hstr x (List.mem_cons_of_mem r hx))
        (fun x hx => hc x (List.mem_cons_of_mem r hx))]
    rw [List.map_cons, List.sum_cons, hcc]
    simp [Fl.q, add_assoc]

theorem paramTotal_sum (ans : Answers) (fr : Bool) (p : String) (l : List Row)
    (hstr : ∀ r ∈ l, Cell.isStr r.vikt = false)
    (hc : ∀ r ∈ l, (rowNormalized ans p r).isNum = true) :
    paramTotal ans fr p l =
      some (Fl.num
        ((l.map (fun r => resolvedWeight fr r.vikt * (rowNormalized ans p r).q)).sum)) := by
  rw [paramTotal, paramTotalFrom_sum ans fr p l 0 hstr hc, zero_add]

theorem collectScores_eq (f : String → Option Fl) :
    ∀ (ks : List String) (s : List (String × Fl)), collectScores f ks = some s →
      s.map Prod.fst = ks ∧ ∀ kv ∈ s, f kv.1 = some kv.2 := by
  intro ks
  induction ks with
  | nil =>
    intro s hs
    simp only [collectScores] at hs
    cases hs
    exact ⟨rfl, by simp⟩
  | cons k ks ih =>
    intro s hs
    simp only [collectScores] at hs
    cases hf : f k with
    | none => rw [hf] at hs; exact Option.noConfusion hs
    | some v =>
      rw [hf] at hs
      cases hrest : collectScores f ks with
      | none => rw [hrest] at hs; exact Option.noConfusion hs
      | some s0 =>
        rw [hrest] at hs
        cases hs
        obtain ⟨hmap, hval⟩ := ih s0 hrest
        refine ⟨by simp [hmap], ?_⟩
        intro kv hkv
        rcases List.mem_cons.mp hkv with rfl | hkv
        · exact hf
        · exact hval kv hkv

theorem collectScores_some (f : String → Option Fl) :
    ∀ ks : List String, (∀ k ∈ ks, (f k).isSome = true) →
      ∃ s, collectScores f ks = some s := by
  intro ks
  induction ks with
  | nil => intro _; exact ⟨[], rfl⟩
  | cons k ks ih =>
    intro h
    obtain ⟨v, hv⟩ := Option.isSome_iff_exists.mp (h k (List.mem_cons_self k ks))
    obtain ⟨s0, hs0⟩ := ih (fun x hx => h x (List.mem_cons_of_mem k hx))
    exact ⟨(k, v) :: s0, by simp only [collectScores, hv, hs0]⟩

theorem foldl_add_num (l : List ℚ) :
    ∀ a : ℚ, List.foldl Fl.add (Fl.num a) (l.map Fl.num) = Fl.num (a + l.sum) := by
  induction l with
  | nil => intro a; simp [Fl.add]
  | cons q qs ih =>
    intro a
    simp only [List.map_cons, List.foldl_cons]
    rw [show (Fl.num a).add (Fl.num q) = Fl.num (a + q) from rfl, ih (a + q)]
    simp [add_assoc]

theorem sumFl_map_num (l : List ℚ) : sumFl (l.map Fl.num) = Fl.num l.sum := by
  rw [sumFl, foldl_add_num l 0, zero_add]

/-! ## Rounding bounds -/

theorem rhe_nonneg (y : ℚ) (h : 0 ≤ y) : 0 ≤ rhe y := by
  have h0 : 0 ≤ ⌊y⌋ := Int.floor_nonneg.mpr h
  unfold rhe
  split_ifs <;> omega

theorem rhe_le (y : ℚ) (B : ℤ) (h : y ≤ B) : rhe y ≤ B := by
  have h0 : ⌊y⌋ ≤ B := by
    have := Int.floor_le_floor h
    simpa using this
  unfold rhe
  split_ifs with h1 h2 h3
  · exact h0
  · rcases lt_or_eq_of_le h0 with hlt | rfl
    · omega
    · exfalso
      have : y - ⌊y⌋ ≤ 0 := by
        have : y ≤ (⌊y⌋ : ℚ) := h
        linarith
      linarith
  · exact h0
  · rcases lt_or_eq_of_le h0 with hlt | rfl
    · omega
    · exfalso
      have hy : y - ⌊y⌋ = 1/2 := le_antisymm (not_lt.mp h2) (not_lt.mp h1)
      have : y ≤ (⌊y⌋ : ℚ) := h
      linarith

theorem roundQ3_nonneg (x : ℚ) (h : 0 ≤ x) : 0 ≤ roundQ3 x := by
  unfold roundQ3
  have := rhe_nonneg (x * 1000) (by positivity)
  positivity

theorem roundQ3_le_one (x : ℚ) (h : x ≤ 1) : roundQ3 x ≤ 1 := by
  unfold roundQ3
  have h1 : rhe (x * 1000) ≤ (1000 : ℤ) := by
    apply rhe_le
    push_cast
    linarith
  rw [div_le_one (by norm_num)]
  exact_mod_cast h1

theorem roundQ3_zero : roundQ3 0 = 0 := by
  norm_num [roundQ3, rhe]

/-! ## C10 -/

unseal Rat.add Rat.mul Rat.inv Rat.sub in
/-- C10 counterexample: a rule whose weight is NaN does get weight 0.0,
but when its contribution is itself NaN (here: no answer and a NaN
precomputed normalized value, which passes `float`), the product
`0.0 * nan` is NaN and the parameter score is NaN, not a well-defined
number. -/
theorem c10_counterexample :
    calculate_scores [Row.mk "A" "d" Cell.na Cell.na Cell.na Cell.na "max" Cell.na] [] =
      some [("A", Fl.nan)] ∧
    Fl.isNum Fl.nan = false := by
  decide

/-- C10 (amended): a rule with a NaN weight cell is given weight 0.0 and
contributes nothing to its parameter accumulation whenever its own
contribution is a number: deleting it from the group leaves the
accumulated total unchanged.  With the proviso that every contribution in
the group is numeric (and no weight is a string), the group total is a
well-defined number; a NaN contribution, by contrast, propagates. -/
theorem c10_amended (ans : Answers) (fr : Bool) (p : String) (r : Row)
    (hna : r.vikt = Cell.na) (hnum : (rowNormalized ans p r).isNum = true) :
    (∀ pre post : List Row,
        paramTotal ans fr p (pre ++ r :: post) = paramTotal ans fr p (pre ++ post)) ∧
    (∀ l : List Row, (∀ x ∈ l, Cell.isStr x.vikt = false) →
        (∀ x ∈ l, (rowNormalized ans p x).isNum = true) →
        ∃ q : ℚ, paramTotal ans fr p (r :: l) = some (Fl.num q)) := by
  obtain ⟨c, hcc⟩ := isNum_exists hnum
  have hw : rowWeight fr r = some (Fl.num 0) := by
    simp [rowWeight, hna, Cell.isna]
  have hskip : ∀ acc : Fl, acc.add ((Fl.num 0).mul (Fl.num c)) = acc := by
    intro acc
    cases acc <;> simp [Fl.add, Fl.mul]
  have hmain : ∀ (pre : List Row) (post : List Row) (acc : Fl),
      paramTotalFrom ans fr p acc (pre ++ r :: post) =
        paramTotalFrom ans fr p acc (pre ++ post) := by
    intro pre
    induction pre with
    | nil =>
      intro post acc
      simp only [List.nil_append, paramTotalFrom, hw, hcc, hskip]
    | cons x xs ih =>
      intro post acc
      simp only [List.cons_append, paramTotalFrom]
      cases hwx : rowWeight fr x with
      | none => rfl
      | some w => exact ih post _
  constructor
  · intro pre post
    exact hmain pre post (Fl.num 0)
  · intro l hstr hc
    have h1 : paramTotal ans fr p (r :: l) = paramTotal ans fr p l := hmain [] l (Fl.num 0)
    rw [h1, paramTotal_sum ans fr p l hstr hc]
    exact ⟨_, rfl⟩

unseal Rat.add Rat.mul Rat.inv Rat.sub in
/-- C10 witness: the amended statement at a concrete NaN-weight rule with
a numeric precomputed contribution 0.7: the rule drops out of its group
total. -/
theorem c10_witness :
    paramTotal [] true "A"
      [Row.mk "A" "d" Cell.na Cell.na (Cell.num 10) Cell.na "max" (Cell.num (7/10))] =
      paramTotal [] true "A" [] :=
  (c10_amended [] true "A"
    (Row.mk "A" "d" Cell.na Cell.na (Cell.num 10) Cell.na "max" (Cell.num (7/10)))
    rfl (by decide)).1 [] []

/-! ## C5 -/

theorem rowNormalized_step (n : Fl) : (Fl.num 0).add ((Fl.num 1).mul n) = n := by
  cases n <;> simp [Fl.add, Fl.mul]

theorem single_row_score (r : Row) (ans : Answers) (hw : r.vikt = Cell.num 1) :
    calculate_scores [r] ans =
      some [(r.parameter, (rowNormalized ans r.parameter r).round3)] := by
  have hfr : tableFractions [r] = true := by
    simp [tableFractions, detect_weight_scale, seriesMax, toNumeric, hw]
  have hkeys : sortedKeys [r] = [r.parameter] := rfl
  have hfil : List.filter (fun x => decide (x.parameter = r.parameter)) [r] = [r] := by
    simp
  have hrw : rowWeight true r = some (Fl.num 1) := by
    simp [rowWeight, hw, Cell.isna, pyFloat]
  simp only [calculate_scores, hfr, hkeys, collectScores, hfil, paramTotal,
    paramTotalFrom, hrw, rowNormalized_step, Option.map_some']

/-- C5: for a rule table consisting of one rule (given unit weight so the
contribution is observable), the score follows the claimed chain: a
non-free-text answer is normalized; otherwise the precomputed normalized
value is coerced by `float`; if that fails, the stored raw value is
normalized; and if that is None too, the contribution is exactly 0.0 and
the rule still passes through the weighting. -/
theorem c5_contribution_chain (r : Row) (ans : Answers) (hw : r.vikt = Cell.num 1) :
    (∀ a : Answer, lookupAnswer ans (r.parameter, r.delparam) = some a → a.isText = false →
        calculate_scores [r] ans =
          some [(r.parameter,
            ((normalize_value a.rawCell r.logik r.maxRef r.optimal).getD (Fl.num 0)).round3)]) ∧
    ((∀ a : Answer, lookupAnswer ans (r.parameter, r.delparam) = some a → a.isText = true) →
      (∀ f : Fl, pyFloat r.normVal = some f →
          calculate_scores [r] ans = some [(r.parameter, f.round3)]) ∧
      (pyFloat r.normVal = none →
        (∀ v : Fl, normalize_value r.ravarde r.logik r.maxRef r.optimal = some v →
            calculate_scores [r] ans = some [(r.parameter, v.round3)]) ∧
        (normalize_value r.ravarde r.logik r.maxRef r.optimal = none →
            calculate_scores [r] ans = some [(r.parameter, Fl.num 0)]))) := by
  have hbase := single_row_score r ans hw
  constructor
  · intro a hla ht
    rw [hbase]
    have : rowNormalized ans r.parameter r =
        (normalize_value a.rawCell r.logik r.maxRef r.optimal).getD (Fl.num 0) := by
      simp [rowNormalized, hla, ht]
    rw [this]
  · intro hno
    have hfall : rowNormalized ans r.parameter r = (fallbackNormalized r).getD (Fl.num 0) := by
      unfold rowNormalized
      cases hla : lookupAnswer ans (r.parameter, r.delparam) with
      | none => rfl
      | some a => simp [hno a hla]
    constructor
    · intro f hf
      rw [hbase, hfall]
      simp [fallbackNormalized, hf]
    · intro hf
      constructor
      · intro v hv
        rw [hbase, hfall]
        simp [fallbackNormalized, hf, hv]
      · intro hv
        rw [hbase, hfall]
        simp [fallbackNormalized, hf, hv, Fl.round3, roundQ3_zero]

unseal Rat.add Rat.mul Rat.inv Rat.sub in
/-- C5 witness: the answer branch of the chain at a concrete one-rule
table with a numeric answer 5 against max logic with reference 10. -/
theorem c5_witness :
    calculate_scores [Row.mk "P" "d" Cell.na (Cell.num 1) (Cell.num 10) Cell.na "max" Cell.na]
        [(("P", "d"), Answer.number 5)] =
      some [("P",
        ((normalize_value (Cell.num 5) "max" (Cell.num 10) Cell.na).getD (Fl.num 0)).round3)] :=
  (c5_contribution_chain
      (Row.mk "P" "d" Cell.na (Cell.num 1) (Cell.num 10) Cell.na "max" Cell.na)
      [(("P", "d"), Answer.number 5)] rfl).1
    (Answer.number 5) (by decide) rfl

/-! ## C8 -/

/-- C8: the total score is the arithmetic mean of the parameter scores,
rounded to 3 decimals, and it is 0.0 (not an error) for an empty score
mapping. -/
theorem c8_total_is_rounded_mean (s : List (String × ℚ)) :
    total_score (s.map (fun pv => (pv.1, Fl.num pv.2))) =
      Fl.num (if 0 < s.length then roundQ3 ((s.map Prod.snd).sum / (s.length : ℚ)) else 0) := by
  by_cases h : 0 < s.length
  · have hlen : (s.map (fun pv => (pv.1, Fl.num pv.2))).length = s.length := by simp
    have hmap : (s.map (fun pv => (pv.1, Fl.num pv.2))).map (fun pv => pv.2) =
        (s.map Prod.snd).map Fl.num := by
      simp [List.map_map]
    have hne : ((s.length : ℚ)) ≠ 0 := by
      exact_mod_cast Nat.pos_iff_ne_zero.mp h
    have hdiv : (Fl.num ((s.map Prod.snd).sum)).div (Fl.num (s.length : ℚ)) =
        Fl.num ((s.map Prod.snd).sum / (s.length : ℚ)) := by
      simp [Fl.div, hne]
    rw [total_score, if_pos (hlen ▸ h), hmap, sumFl_map_num, hlen, hdiv, if_pos h]
    rfl
  · have hnil : s = [] := List.length_eq_zero.mp (Nat.eq_zero_of_not_pos h)
    subst hnil
    simp [total_score, if_neg h]

/-- C8 witness: the rounded-mean equation at the concrete score mapping
with parameter scores 0.25 and 0.75. -/
theorem c8_witness :
    total_score (List.map (fun pv => (pv.1, Fl.num pv.2))
        [("A", (1:ℚ)/4), ("B", (3:ℚ)/4)]) =
      Fl.num (if 0 < ([("A", (1:ℚ)/4), ("B", (3:ℚ)/4)] : List (String × ℚ)).length then
        roundQ3 ((([("A", (1:ℚ)/4), ("B", (3:ℚ)/4)] : List (String × ℚ)).map Prod.snd).sum /
          (([("A", (1:ℚ)/4), ("B", (3:ℚ)/4)] : List (String × ℚ)).length : ℚ))
      else 0) :=
  c8_total_is_rounded_mean [("A", (1:ℚ)/4), ("B", (3:ℚ)/4)]

/-! ## Deduplication and sorting lemmas -/

theorem mem_dedupAux : ∀ (l seen : List String) (x : String),
    x ∈ dedupAux seen l ↔ x ∈ l ∧ x ∉ seen := by
  intro l
  induction l with
  | nil => intro seen x; simp [dedupAux]
  | cons y ys ih =>
    intro seen x
    by_cases hy : y ∈ seen
    · rw [dedupAux, if_pos hy, ih]
      constructor
      · rintro ⟨hx, hn⟩
        exact ⟨List.mem_cons_of_mem y hx, hn⟩
      · rintro ⟨hx, hn⟩
        rcases List.mem_cons.mp hx with rfl | hx
        · exact absurd hy hn
        · exact ⟨hx, hn⟩
    · rw [dedupAux, if_neg hy]
      constructor
      · intro hx
        rcases List.mem_cons.mp hx with rfl | hx
        · exact ⟨List.mem_cons_self x ys, hy⟩
        · obtain ⟨h1, h2⟩ := (ih (y :: seen) x).mp hx
          exact ⟨List.mem_cons_of_mem y h1, fun hs => h2 (List.mem_cons_of_mem y hs)⟩
      · rintro ⟨hx, hn⟩
        rcases List.mem_cons.mp hx with rfl | hx
        · exact List.mem_cons_self x _
        · by_cases hxy : x = y
          · subst hxy
            exact List.mem_cons_self x _
          · refine List.mem_cons_of_mem y ((ih (y :: seen) x).mpr ⟨hx, ?_⟩)
            intro hs
            rcases List.mem_cons.mp hs with h | h
            · exact hxy h
            · exact hn h

theorem nodup_dedupAux : ∀ (l seen : List String), (dedupAux seen l).Nodup := by
  intro l
  induction l with
  | nil => intro seen; simp [dedupAux]
  | cons y ys ih =>
    intro seen
    by_cases hy : y ∈ seen
    · rw [dedupAux, if_pos hy]
      exact ih seen
    · rw [dedupAux, if_neg hy]
      refine List.nodup_cons.mpr ⟨?_, ih (y :: seen)⟩
      intro hmem
      exact ((mem_dedupAux ys (y :: seen) y).mp hmem).2 (List.mem_cons_self y seen)

theorem mem_insertLe (x : String) : ∀ (l : List String) (y : String),
    y ∈ insertLe x l ↔ y = x ∨ y ∈ l := by
  intro l
  induction l with
  | nil => intro y; simp [insertLe]
  | cons z zs ih =>
    intro y
    by_cases h : strLeB x z = true
    · rw [insertLe, if_pos h]
      simp
    · rw [insertLe, if_neg h]
      rw [List.mem_cons, ih y, List.mem_cons]
      tauto

theorem mem_sortLe : ∀ (l : List String) (y : String), y ∈ sortLe l ↔ y ∈ l := by
  intro l
  induction l with
  | nil => intro y; simp [sortLe]
  | cons z zs ih =>
    intro y
    rw [sortLe, mem_insertLe, ih, List.mem_cons]

theorem nodup_insertLe (x : String) : ∀ l : List String, l.Nodup → x ∉ l →
    (insertLe x l).Nodup := by
  intro l
  induction l with
  | nil => intro _ _; simp [insertLe]
  | cons z zs ih =>
    intro hnd hx
    by_cases h : strLeB x z = true
    · rw [insertLe, if_pos h]
      exact List.nodup_cons.mpr ⟨hx, hnd⟩
    · rw [insertLe, if_neg h]
      obtain ⟨hz, hzs⟩ := List.nodup_cons.mp hnd
      refine List.nodup_cons.mpr ⟨?_, ih hzs (fun hm => hx (List.mem_cons_of_mem z hm))⟩
      intro hm
      rcases (mem_insertLe x zs z).mp hm with rfl | hm
      · exact hx (List.mem_cons_self z zs)
      · exact hz hm

theorem nodup_sortLe : ∀ l : List String, l.Nodup → (sortLe l).Nodup := by
  intro l
  induction l with
  | nil => intro _; simp [sortLe]
  | cons z zs ih =>
    intro hnd
    obtain ⟨hz, hzs⟩ := List.nodup_cons.mp hnd
    exact nodup_insertLe z (sortLe zs) (ih hzs) (fun hm => hz ((mem_sortLe zs z).mp hm))

theorem charsLe_of_not (a : List Char) : ∀ b : List Char,
    charsLe a b = false → charsLe b a = true := by
  induction a with
  | nil => intro b h; simp [charsLe] at h
  | cons x xs ih =>
    intro b h
    cases b with
    | nil => rfl
    | cons y ys =>
      rw [charsLe] at h ⊢
      by_cases hxy : x.toNat < y.toNat
      · rw [if_pos hxy] at h
        exact Bool.noConfusion h
      · rw [if_neg hxy] at h
        by_cases hyx : y.toNat < x.toNat
        · rw [if_pos hyx]
        · rw [if_neg hyx] at h
          rw [if_neg hyx, if_neg hxy]
          exact ih ys h

theorem charsLe_trans (a : List Char) : ∀ b c : List Char,
    charsLe a b = true → charsLe b c = true → charsLe a c = true := by
  induction a with
  | nil => intro b c _ _; rfl
  | cons x xs ih =>
    intro b c hab hbc
    cases b with
    | nil => rw [charsLe] at hab; exact Bool.noConfusion hab
    | cons y ys =>
      cases c with
      | nil => rw [charsLe] at hbc; exact Bool.noConfusion hbc
      | cons z zs =>
        rw [charsLe] at hab hbc ⊢
        by_cases hxy : x.toNat < y.toNat
        · by_cases hyz : y.toNat < z.toNat
          · rw [if_pos (by omega : x.toNat < z.toNat)]
          · rw [if_neg hyz] at hbc
            by_cases hzy : z.toNat < y.toNat
            · rw [if_pos hzy] at hbc
              exact Bool.noConfusion hbc
            · rw [if_pos (by omega : x.toNat < z.toNat)]
        · rw [if_neg hxy] at hab
          by_cases hyx : y.toNat < x.toNat
          · rw [if_pos hyx] at hab
            exact Bool.noConfusion hab
          · rw [if_neg hyx] at hab
            by_cases hyz : y.toNat < z.toNat
            · rw [if_pos (by omega : x.toNat < z.toNat)]
            · rw [if_neg hyz] at hbc
              by_cases hzy : z.toNat < y.toNat
              · rw [if_pos hzy] at hbc
                exact Bool.noConfusion hbc
              · rw [if_neg hzy] at hbc
                rw [if_neg (by omega : ¬ x.toNat < z.toNat),
                  if_neg (by omega : ¬ z.toNat < x.toNat)]
                exact ih ys zs hab hbc

theorem strLeB_of_not (a b : String) (h : strLeB a b = false) : strLeB b a = true :=
  charsLe_of_not a.data b.data h

theorem strLeB_trans (a b c : String) (hab : strLeB a b = true) (hbc : strLeB b c = true) :
    strLeB a c = true :=
  charsLe_trans a.data b.data c.data hab hbc

theorem pairwise_insertLe (x : String) : ∀ l : List String,
    List.Pairwise (fun a b => strLeB a b = true) l →
    List.Pairwise (fun a b => strLeB a b = true) (insertLe x l) := by
  intro l
  induction l with
  | nil => intro _; simp [insertLe]
  | cons y ys ih =>
    intro hp
    obtain ⟨hy, hys⟩ := List.pairwise_cons.mp hp
    by_cases h : strLeB x y = true
    · rw [insertLe, if_pos h]
      refine List.pairwise_cons.mpr ⟨?_, hp⟩
      intro z hz
      rcases List.mem_cons.mp hz with rfl | hz
      · exact h
      · exact strLeB_trans x y z h (hy z hz)
    · rw [insertLe, if_neg h]
      refine List.pairwise_cons.mpr ⟨?_, ih hys⟩
      intro z hz
      have hxy : strLeB x y = false := by
        cases hB : strLeB x y
        · rfl
        · exact absurd hB h
      rcases (mem_insertLe x ys z).mp hz with hzx | hz
      · rw [hzx]
        exact strLeB_of_not x y hxy
      · exact hy z hz

theorem pairwise_sortLe : ∀ l : List String,
    List.Pairwise (fun a b => strLeB a b = true) (sortLe l) := by
  intro l
  induction l with
  | nil => simp [sortLe]
  | cons z zs ih => exact pairwise_insertLe z (sortLe zs) ih

theorem mem_sortedKeys (rows : List Row) (p : String) :
    p ∈ sortedKeys rows ↔ p ∈ rows.map (fun r => r.parameter) := by
  rw [sortedKeys, mem_sortLe, appearanceKeys, mem_dedupAux]
  simp

/-! ## C2 -/

/-- C2 counterexample: a table whose parameters first appear in the order
B, A produces its score mapping with keys A, B — pandas `groupby` sorts
the group keys (default `sort=True`), so the appearance order is not
preserved. -/
theorem c2_counterexample :
    (calculate_scores
        [Row.mk "B" "d1" Cell.na Cell.na Cell.na Cell.na "max" Cell.na,
         Row.mk "A" "d2" Cell.na Cell.na Cell.na Cell.na "max" Cell.na] []).map
        (fun s => s.map Prod.fst) = some ["A", "B"] ∧
    appearanceKeys
        [Row.mk "B" "d1" Cell.na Cell.na Cell.na Cell.na "max" Cell.na,
         Row.mk "A" "d2" Cell.na Cell.na Cell.na Cell.na "max" Cell.na] = ["B", "A"] ∧
    (["A", "B"] : List String) ≠ ["B", "A"] := by
  decide

/-- C2 (amended): the scoring engine emits the parameters in ascending
lexicographic order of the key strings (the pandas groupby default), with
each parameter exactly once, covering exactly the parameters of the
table. -/
theorem c2_amended (rows : List Row) (ans : Answers) (s : List (String × Fl))
    (h : calculate_scores rows ans = some s) :
    List.Pairwise (fun a b => strLeB a b = true) (s.map Prod.fst) ∧
    (s.map Prod.fst).Nodup ∧
    (∀ p : String, p ∈ s.map Prod.fst ↔ p ∈ rows.map (fun r => r.parameter)) := by
  unfold calculate_scores at h
  obtain ⟨hmap, _⟩ := collectScores_eq _ (sortedKeys rows) s h
  rw [hmap]
  refine ⟨?_, ?_, fun p => mem_sortedKeys rows p⟩
  · rw [sortedKeys]
    exact pairwise_sortLe _
  · rw [sortedKeys, appearanceKeys]
    exact nodup_sortLe _ (nodup_dedupAux _ _)

/-- C2 witness: the amended order property at the concrete two-parameter
table with appearance order B, A. -/
theorem c2_witness :
    List.Pairwise (fun a b => strLeB a b = true)
      (List.map Prod.fst [("A", Fl.nan), ("B", Fl.nan)]) ∧
    (("A" : String) ∈ List.map Prod.fst [("A", Fl.nan), ("B", Fl.nan)] ↔
      ("A" : String) ∈ List.map (fun r => r.parameter)
        [Row.mk "B" "d1" Cell.na Cell.na Cell.na Cell.na "max" Cell.na,
         Row.mk "A" "d2" Cell.na Cell.na Cell.na Cell.na "max" Cell.na]) :=
  ⟨(c2_amended
      [Row.mk "B" "d1" Cell.na Cell.na Cell.na Cell.na "max" Cell.na,
       Row.mk "A" "d2" Cell.na Cell.na Cell.na Cell.na "max" Cell.na] []
      [("A", Fl.nan), ("B", Fl.nan)] (by decide)).1,
   (c2_amended
      [Row.mk "B" "d1" Cell.na Cell.na Cell.na Cell.na "max" Cell.na,
       Row.mk "A" "d2" Cell.na Cell.na Cell.na Cell.na "max" Cell.na] []
      [("A", Fl.nan), ("B", Fl.nan)] (by decide)).2.2 "A"⟩

/-! ## C1 -/

theorem inUnitB_num {v : Fl} (h : v.inUnitB = true) :
    ∃ q : ℚ, v = Fl.num q ∧ 0 ≤ q ∧ q ≤ 1 := by
  cases v with
  | nan => exact Bool.noConfusion h
  | num q =>
    simp only [Fl.inUnitB, Bool.and_eq_true, decide_eq_true_eq] at h
    exact ⟨q, rfl, h.1, h.2⟩

theorem inUnitB_isNum {v : Fl} (h : v.inUnitB = true) : v.isNum = true := by
  obtain ⟨q, rfl, _, _⟩ := inUnitB_num h
  rfl

theorem num_inUnitB (q : ℚ) (h0 : 0 ≤ q) (h1 : q ≤ 1) : (Fl.num q).inUnitB = true := by
  simp [Fl.inUnitB, h0, h1]

theorem foldl_add_bounds : ∀ (l : List Fl) (a : ℚ), (∀ v ∈ l, v.inUnitB = true) →
    ∃ S : ℚ, List.foldl Fl.add (Fl.num a) l = Fl.num S ∧ a ≤ S ∧ S ≤ a + l.length := by
  intro l
  induction l with
  | nil => intro a _; exact ⟨a, rfl, le_refl a, by simp⟩
  | cons v vs ih =>
    intro a h
    obtain ⟨qv, rfl, h0, h1⟩ := inUnitB_num (h v (List.mem_cons_self v vs))
    obtain ⟨S, hS, hS1, hS2⟩ := ih (a + qv) (fun x hx => h x (List.mem_cons_of_mem _ hx))
    refine ⟨S, ?_, by linarith, ?_⟩
    · simpa [Fl.add] using hS
    · have : (List.length (Fl.num qv :: vs) : ℚ) = vs.length + 1 := by
        push_cast [List.length_cons]
        ring
      rw [this]
      linarith

theorem total_score_inUnit (s : List (String × Fl))
    (h : ∀ pv ∈ s, pv.2.inUnitB = true) : (total_score s).inUnitB = true := by
  by_cases hlen : 0 < s.length
  · obtain ⟨S, hS, hS0, hS1⟩ :=
      foldl_add_bounds (s.map (fun pv => pv.2)) 0
        (fun v hv => by
          obtain ⟨pv, hpv, rfl⟩ := List.mem_map.mp hv
          exact h pv hpv)
    have hlenq : (0 : ℚ) < (s.length : ℚ) := by exact_mod_cast hlen
    have hdiv : (Fl.num S).div (Fl.num (s.length : ℚ)) = Fl.num (S / s.length) := by
      simp [Fl.div, ne_of_gt hlenq]
    have hsum : sumFl (s.map (fun pv => pv.2)) = Fl.num S := hS
    rw [total_score, if_pos hlen, hsum, hdiv]
    have hmaplen : ((s.map (fun pv => pv.2)).length : ℚ) = (s.length : ℚ) := by simp
    rw [hmaplen] at hS1
    have h0 : 0 ≤ S / (s.length : ℚ) := div_nonneg (by linarith) (le_of_lt hlenq)
    have h1 : S / (s.length : ℚ) ≤ 1 := by
      rw [div_le_one hlenq]
      linarith
    exact num_inUnitB _ (roundQ3_nonneg _ h0) (roundQ3_le_one _ h1)
  · rw [total_score, if_neg hlen]
    exact num_inUnitB 0 (le_refl 0) (by norm_num)

/-- C1 (amended): under the provisos the code itself does not enforce —
no string weight cells, nonnegative resolved weights summing to at most 1
within each parameter, and every contribution a number in [0,1] — every
parameter score and the total score lie in [0,1]; every parameter of the
table appears in the output, and a parameter all of whose contributions
are zero scores exactly 0.0. -/
theorem c1_amended (rows : List Row) (ans : Answers)
    (hstr : ∀ r ∈ rows, Cell.isStr r.vikt = false)
    (hw0 : ∀ r ∈ rows, 0 ≤ resolvedWeight (tableFractions rows) r.vikt)
    (hw1 : ∀ p ∈ rows.map (fun r => r.parameter),
        ((rows.filter (fun r => r.parameter = p)).map
          (fun r => resolvedWeight (tableFractions rows) r.vikt)).sum ≤ 1)
    (hc : ∀ r ∈ rows, (rowNormalized ans r.parameter r).inUnitB = true) :
    ∃ s, calculate_scores rows ans = some s ∧
      (∀ pv ∈ s, pv.2.inUnitB = true) ∧
      (total_score s).inUnitB = true ∧
      (∀ p : String, p ∈ s.map Prod.fst ↔ p ∈ rows.map (fun r => r.parameter)) ∧
      (∀ pv ∈ s, (∀ r ∈ rows, r.parameter = pv.1 → rowNormalized ans pv.1 r = Fl.num 0) →
        pv.2 = Fl.num 0) := by
  have hmemf : ∀ (p : String) (r : Row), r ∈ rows.filter (fun r => r.parameter = p) →
      r ∈ rows ∧ r.parameter = p := by
    intro p r hr
    obtain ⟨h1, h2⟩ := List.mem_filter.mp hr
    exact ⟨h1, of_decide_eq_true h2⟩
  have hgroup : ∀ p : String,
      paramTotal ans (tableFractions rows) p (rows.filter (fun r => r.parameter = p)) =
        some (Fl.num (((rows.filter (fun r => r.parameter = p)).map
          (fun r => resolvedWeight (tableFractions rows) r.vikt *
            (rowNormalized ans p r).q)).sum)) := by
    intro p
    apply paramTotal_sum
    · intro r hr
      exact hstr r (hmemf p r hr).1
    · intro r hr
      obtain ⟨h1, h2⟩ := hmemf p r hr
      exact inUnitB_isNum (h2 ▸ hc r h1)
  have hsum0 : ∀ p : String,
      0 ≤ ((rows.filter (fun r => r.parameter = p)).map
        (fun r => resolvedWeight (tableFractions rows) r.vikt *
          (rowNormalized ans p r).q)).sum := by
    intro p
    apply List.sum_nonneg
    intro x hx
    obtain ⟨r, hr, rfl⟩ := List.mem_map.mp hx
    obtain ⟨h1, h2⟩ := hmemf p r hr
    obtain ⟨c, hcc, hc0, hc1⟩ := inUnitB_num (h2 ▸ hc r h1)
    rw [hcc]
    exact mul_nonneg (hw0 r h1) (by simpa [Fl.q] using hc0)
  have hsum1 : ∀ p ∈ rows.map (fun r => r.parameter),
      ((rows.filter (fun r => r.parameter = p)).map
        (fun r => resolvedWeight (tableFractions rows) r.vikt *
          (rowNormalized ans p r).q)).sum ≤ 1 := by
    intro p hp
    refine le_trans (List.sum_le_sum ?_) (hw1 p hp)
    intro r hr
    obtain ⟨h1, h2⟩ := hmemf p r hr
    obtain ⟨c, hcc, hc0, hc1⟩ := inUnitB_num (h2 ▸ hc r h1)
    rw [hcc]
    calc resolvedWeight (tableFractions rows) r.vikt * (Fl.num c).q
        ≤ resolvedWeight (tableFractions rows) r.vikt * 1 := by
          exact mul_le_mul_of_nonneg_left (by simpa [Fl.q] using hc1) (hw0 r h1)
      _ = resolvedWeight (tableFractions rows) r.vikt := mul_one _
  obtain ⟨s, hs⟩ := collectScores_some
    (fun p => (paramTotal ans (tableFractions rows) p
      (rows.filter (fun r => r.parameter = p))).map Fl.round3)
    (sortedKeys rows)
    (by
      intro k hk
      show (Option.map Fl.round3 (paramTotal ans (tableFractions rows) k
        (rows.filter (fun r => r.parameter = k)))).isSome = true
      rw [hgroup k]
      rfl)
  obtain ⟨hmap, hval⟩ := collectScores_eq _ (sortedKeys rows) s hs
  have hscore : ∀ pv ∈ s, pv.2 = Fl.num (roundQ3
      (((rows.filter (fun r => r.parameter = pv.1)).map
        (fun r => resolvedWeight (tableFractions rows) r.vikt *
          (rowNormalized ans pv.1 r).q)).sum)) := by
    intro pv hpv
    have h1 := hval pv hpv
    rw [hgroup pv.1] at h1
    exact (Option.some.inj h1).symm
  have hkeymem : ∀ pv ∈ s, pv.1 ∈ rows.map (fun r => r.parameter) := by
    intro pv hpv
    have : pv.1 ∈ s.map Prod.fst := List.mem_map.mpr ⟨pv, hpv, rfl⟩
    rw [hmap] at this
    exact (mem_sortedKeys rows pv.1).mp this
  have hunit : ∀ pv ∈ s, pv.2.inUnitB = true := by
    intro pv hpv
    rw [hscore pv hpv]
    exact num_inUnitB _ (roundQ3_nonneg _ (hsum0 pv.1))
      (roundQ3_le_one _ (hsum1 pv.1 (hkeymem pv hpv)))
  refine ⟨s, hs, hunit, total_score_inUnit s hunit, ?_, ?_⟩
  · intro p
    rw [hmap]
    exact mem_sortedKeys rows p
  · intro pv hpv hz
    rw [hscore pv hpv]
    have hzero : ((rows.filter (fun r => r.parameter = pv.1)).map
        (fun r => resolvedWeight (tableFractions rows) r.vikt *
          (rowNormalized ans pv.1 r).q)).sum = 0 := by
      apply List.sum_eq_zero
      intro x hx
      obtain ⟨r, hr, rfl⟩ := List.mem_map.mp hx
      obtain ⟨h1, h2⟩ := hmemf pv.1 r hr
      rw [hz r h1 h2]
      simp [Fl.q]
    rw [hzero, roundQ3_zero]

unseal Rat.add Rat.mul Rat.inv Rat.sub in
/-- C1 witness: the amended range property at a one-rule table with
weight 0.5 and precomputed contribution 0.6, whose score is 0.3 and whose
total is 0.3. -/
theorem c1_witness :
    (total_score [("A", Fl.num (3/10))]).inUnitB = true := by
  obtain ⟨s, hs, h1, h2, h3, h4⟩ := c1_amended
    [Row.mk "A" "d" Cell.na (Cell.num (1/2)) (Cell.num 10) Cell.na "max" (Cell.num (3/5))]
    [] (by decide) (by decide) (by decide) (by decide)
  have he : calculate_scores
      [Row.mk "A" "d" Cell.na (Cell.num (1/2)) (Cell.num 10) Cell.na "max" (Cell.num (3/5))]
      [] = some [("A", Fl.num (3/10))] := by decide
  rw [he] at hs
  have hseq := Option.some.inj hs
  rw [← hseq] at h2
  exact h2

unseal Rat.add Rat.mul Rat.inv Rat.sub in
/-- C1 counterexample: with valid numeric inputs (two rules of one
parameter, weights 0.6 and 0.9 — each a legal fraction — and answers that
normalize to 1.0), the parameter score is 1.5 and the total score is 1.5,
outside [0,1]: the code never renormalizes weight sums. -/
theorem c1_counterexample :
    calculate_scores
      [Row.mk "A" "d1" Cell.na (Cell.num (6/10)) (Cell.num 10) Cell.na "max" Cell.na,
       Row.mk "A" "d2" Cell.na (Cell.num (9/10)) (Cell.num 10) Cell.na "max" Cell.na]
      [(("A", "d1"), Answer.number 10), (("A", "d2"), Answer.number 10)]
      = some [("A", Fl.num (3/2))] ∧
    Fl.inUnitB (Fl.num (3/2)) = false ∧
    total_score [("A", Fl.num (3/2))] = Fl.num (3/2) := by
  decide

end BBS

